import Mathlib

/-!
Verification of the disassembly block engine of the `bite` binary-analysis
tool, as implemented in `src/processor/src/blocks.rs`.

The engine's collaborators (the decoder view, the symbol index, the section
map) live outside the provided sources; they are represented here as opaque
query functions bundled in the `Processor` structure, mirroring the methods
that `blocks.rs` calls on `self`.  Addresses and byte values are `Nat`.
The two loops of `blocks.rs` are embedded as executable Lean functions:
the byte-run forward scan (which always terminates on the addresses the
program reaches) and the per-section boundary walk (which can fail to
terminate, e.g. on a zero-width decoder item, and is therefore given a
fuel parameter: `none` means the walk did not finish within the fuel).
-/

namespace Bite

/-- A colored token fragment, modelling `tokenizing::Token`
(`src/tokenizing/src/lib.rs`): a text fragment plus a palette color.
The palette entries are opaque; only their identity matters, so a color is
an abstract `Nat`. -/
structure Token where
  text : String
  color : Nat
deriving Repr, DecidableEq

/-- A function symbol, modelling `debugvault::Symbol`.  `blocks.rs` uses a
symbol only through `symbol.name()`, which yields a token slice that is
spliced into the stream, so the model keeps just that list. -/
structure Symbol where
  name : List Token
deriving Repr, DecidableEq

/-- A decoder error, as used by `blocks.rs`: it carries an error kind
(opaque, `decoder::ErrorKind`) and a byte width `size()`. -/
structure DecError where
  kind : Nat
  size : Nat
deriving Repr, DecidableEq

/-- An opaque decoded-instruction handle.  `blocks.rs` only passes it back
to the decoder (`instruction_width`, `instruction_tokens`). -/
abbrev Inst := Nat

/-- A section of the binary image, modelling `processor_shared::Section`
as described by the spec's data model: a half-open range `[start, end)`
with a name, a kind tag, a walk start `addr`, and byte access.  `byteAt`
gives the byte at an absolute address; `bytes_by_addr` below derives the
exact-length slice interface from it. -/
structure Section where
  name : String
  kind : Nat
  start : Nat
  end_ : Nat
  addr : Nat
  byteAt : Nat → Nat

/-- `section.bytes_by_addr(addr, len)`: a byte slice of exactly `len`
bytes starting at absolute address `addr` (the spec's section-map
interface guarantees exactly `len` bytes are returned). -/
def Section.bytes_by_addr (s : Section) (addr len : Nat) : List Nat :=
  (List.range len).map (fun i => s.byteAt (addr + i))

/-- The engine state seen by `blocks.rs`: the section map plus the decoder
view and symbol index, each an opaque read-only query function.  Field
names follow the methods `blocks.rs` calls on `self` (`self.sections()`,
`self.instruction_by_addr`, `self.instruction_width`,
`self.instruction_tokens(inst, &self.index)`, `self.error_by_addr`,
`self.index.get_func_by_addr`, `self.max_instruction_width`). -/
structure Processor where
  sections : List Section
  instruction_by_addr : Nat → Option Inst
  instruction_width : Inst → Nat
  instruction_tokens : Inst → List Token
  error_by_addr : Nat → Option DecError
  get_func_by_addr : Nat → Option Symbol
  max_instruction_width : Nat

/-- Modelled from the spec: `encode_hex_bytes_truncated` lives in the
`processor_shared` crate, which is not among the provided sources.  Per
the spec it renders the bytes as hex pairs and truncates the result to
`maxLen` characters with an ellipsis when exceeded.  No claim inspects
the produced string; only that it is a pure function of its inputs. -/
def encode_hex_bytes_truncated (bytes : List Nat) (maxLen : Nat) (isPadded : Bool) : String :=
  let hexDigit : Nat → Char := fun n => (Nat.toDigits 16 (n % 16)).headD (Char.ofNat 48)
  let pair : Nat → String := fun b =>
    ⟨[hexDigit (b / 16), hexDigit b, Char.ofNat 32]⟩
  let full := String.join (bytes.map pair)
  let trailer := if isPadded then full else full
  if trailer.length > maxLen then
    ⟨(trailer.toList.take (maxLen - 2)) ++ [Char.ofNat 46, Char.ofNat 46]⟩
  else
    trailer

/-- The tagged block content, a direct translation of `enum BlockContent`
in `blocks.rs`.  `Instruction` stores the tokenized instruction and the
truncated hex byte string; `Error` stores the error kind and the hex byte
string; `Bytes` stores the raw byte vector. -/
inductive BlockContent where
  | sectionStart (sec : Section)
  | sectionEnd (sec : Section)
  | label (symbol : Symbol)
  | instruction (inst : List Token) (bytes : String)
  | error (err : Nat) (bytes : String)
  | bytes (bytes : List Nat)

/-- `struct Block { addr, content }` from `blocks.rs`. -/
structure Block where
  addr : Nat
  content : BlockContent

/-- `Block::len` from `blocks.rs` (lines 49-58): section markers and
labels count 2, instructions and errors 1, and a `Bytes` block counts
`bytes.len() / 32 + 1` (integer division, no cap). -/
def Block.len (b : Block) : Nat :=
  match b.content with
  | .sectionStart _ => 2
  | .sectionEnd _ => 2
  | .label _ => 2
  | .instruction _ _ => 1
  | .error _ _ => 1
  | .bytes bytes => bytes.length / 32 + 1

/-- One step of the byte-run forward scan shared by
`Processor::parse_data_or_code` and
`Processor::compute_section_boundaries`: starting from `baddr`, advance
until the section end `sEnd`, an instruction start, an error start, or a
labelled address other than the run's own start `addr`.  The Rust loop
increments unconditionally and relies on reaching `sEnd`; it is embedded
with the exact fuel `sEnd - baddr`, which keeps the recursion structural
and agrees with the loop at every reachable call (callers always start
the scan at `baddr = addr ≤ sEnd`, where the loop stops at `sEnd` at the
latest). -/
def byteRunScan (p : Processor) (sEnd addr : Nat) : Nat → Nat → Nat
  | 0, baddr => baddr
  | fuel + 1, baddr =>
    if baddr = sEnd then baddr
    else if (p.instruction_by_addr baddr).isSome then baddr
    else if (p.error_by_addr baddr).isSome then baddr
    else if addr ≠ baddr ∧ (p.get_func_by_addr baddr).isSome then baddr
    else byteRunScan p sEnd addr fuel (baddr + 1)

/-- The full forward scan from `addr` (both uses in `blocks.rs` start the
scan cursor `baddr` at `addr`). -/
def scanRunEnd (p : Processor) (sEnd addr : Nat) : Nat :=
  byteRunScan p sEnd addr (sEnd - addr) addr

/-- Modelled from the spec: `Processor::section_by_addr` is not among the
provided sources.  Per the spec's section-map interface it must succeed
for any address in a section's `[start, end)`; per the error-handling
design and scenario S1, an address that is only the exclusive end of a
section is still owned by that section (so `parse_blocks(section.end)`
yields a `SectionEnd` and not the address-out-of-range fault).  The model
therefore first looks for a section whose half-open range contains the
address and falls back to a section ending exactly there. -/
def Processor.section_by_addr (p : Processor) (addr : Nat) : Option Section :=
  match p.sections.find? (fun s => decide (s.start ≤ addr ∧ addr < s.end_)) with
  | some s => some s
  | none => p.sections.find? (fun s => decide (addr = s.end_))

/-- The panic message of the `.expect("Invalid address.")` in
`Processor::parse_data_or_code`. -/
def invalidAddressMsg : String :=
  "Invalid address."

/-- `Processor::parse_data_or_code` from `blocks.rs` (lines 117-176).
The `.expect("Invalid address.")` panic on an address with no containing
section is embedded as `Except.error`; a normal return is `Except.ok`
with `some` real block or `none`. -/
def Processor.parse_data_or_code (p : Processor) (addr : Nat) : Except String (Option Block) :=
  match p.section_by_addr addr with
  | none => Except.error invalidAddressMsg
  | some sec =>
    match p.instruction_by_addr addr with
    | some inst =>
      let width := p.instruction_width inst
      let instToks := p.instruction_tokens inst
      let bytes := sec.bytes_by_addr addr width
      let bytesStr := encode_hex_bytes_truncated bytes (p.max_instruction_width * 3 + 1) true
      Except.ok (some ⟨addr, .instruction instToks bytesStr⟩)
    | none =>
      match p.error_by_addr addr with
      | some err =>
        let bytes := sec.bytes_by_addr addr err.size
        let bytesStr := encode_hex_bytes_truncated bytes (p.max_instruction_width * 3 + 1) true
        Except.ok (some ⟨addr, .error err.kind bytesStr⟩)
      | none =>
        let baddr := scanRunEnd p sec.end_ addr
        let bytes_len := baddr - addr
        if bytes_len > 0 then
          Except.ok (some ⟨addr, .bytes (sec.bytes_by_addr addr bytes_len)⟩)
        else
          Except.ok none

/-- `Processor::parse_blocks` from `blocks.rs` (lines 179-227): section
markers first (`SectionEnd` before `SectionStart` when both), then, if a
real block was produced, a `Label` block when the symbol index reports a
function at `addr`, then the real block. -/
def Processor.parse_blocks (p : Processor) (addr : Nat) : Except String (List Block) :=
  let section_start := p.sections.find? (fun sec => sec.start == addr)
  let section_end := p.sections.find? (fun sec => sec.end_ == addr)
  let markers : List Block :=
    match section_start, section_end with
    | some st, some en => [⟨addr, .sectionEnd en⟩, ⟨addr, .sectionStart st⟩]
    | some st, none => [⟨addr, .sectionStart st⟩]
    | none, some en => [⟨addr, .sectionEnd en⟩]
    | none, none => []
  match p.parse_data_or_code addr with
  | Except.error e => Except.error e
  | Except.ok none => Except.ok markers
  | Except.ok (some real) =>
    match p.get_func_by_addr addr with
    | some symbol => Except.ok (markers ++ [⟨addr, .label symbol⟩, real])
    | none => Except.ok (markers ++ [real])

/-- The loop body of `Processor::compute_section_boundaries` (lines
254-302 of `blocks.rs`), with an explicit fuel: the Rust loop has no
bound and fails to advance on a zero-width decoder item, so `none` means
the walk did not finish within `fuel` iterations.  Each iteration pushes
`addr` for a label, then for an instruction, an error, or a nonempty byte
run, exactly as the source does. -/
def sectionBoundariesLoop (p : Processor) (s : Section) : Nat → Nat → List Nat → Option (List Nat)
  | 0, _, _ => none
  | fuel + 1, addr, acc =>
    if addr = s.end_ then some acc
    else
      let acc1 := if (p.get_func_by_addr addr).isSome then acc ++ [addr] else acc
      match p.instruction_by_addr addr with
      | some inst => sectionBoundariesLoop p s fuel (addr + p.instruction_width inst) (acc1 ++ [addr])
      | none =>
        match p.error_by_addr addr with
        | some err => sectionBoundariesLoop p s fuel (addr + err.size) (acc1 ++ [addr])
        | none =>
          let baddr := scanRunEnd p s.end_ addr
          let bytes_len := baddr - addr
          if bytes_len > 0 then sectionBoundariesLoop p s fuel baddr (acc1 ++ [addr])
          else sectionBoundariesLoop p s fuel addr acc1

/-- `Processor::compute_section_boundaries` (lines 248-306 of
`blocks.rs`): push `section.start`, walk from `section.addr`, and append
`section.end` after the loop. -/
def Processor.compute_section_boundaries (p : Processor) (s : Section) (fuel : Nat) : Option (List Nat) :=
  (sectionBoundariesLoop p s fuel s.addr [s.start]).map (fun l => l ++ [s.end_])

/-- The fork-join of `Processor::compute_block_boundaries`: one worker
per section, joined in section order, each worker's list appended to the
accumulator (`boundaries.extend(thread.join().unwrap())`).  A worker that
does not finish (fuel exhaustion, modelling a non-terminating walk) makes
the whole computation unavailable, as a panicking worker does in Rust. -/
def joinSectionBoundaries (p : Processor) (fuel : Nat) : List Section → Option (List Nat)
  | [] => some []
  | s :: rest =>
    match p.compute_section_boundaries s fuel, joinSectionBoundaries p fuel rest with
    | some l, some ls => some (l ++ ls)
    | _, _ => none

/-- `Vec::dedup`: remove consecutive repeated elements, keeping the
first of each run. -/
def dedupAdj : List Nat → List Nat
  | [] => []
  | [a] => [a]
  | a :: b :: rest => if a = b then dedupAdj (b :: rest) else a :: dedupAdj (b :: rest)

/-- `Processor::compute_block_boundaries` (lines 230-246 of `blocks.rs`):
merge the per-section lists, `sort_unstable`, `dedup`.  Rust's unstable
sort is embedded as insertion sort: on `Nat` with the total order both
produce the unique sorted permutation of the merged list, so they agree
extensionally. -/
def Processor.compute_block_boundaries (p : Processor) (fuel : Nat) : Option (List Nat) :=
  (joinSectionBoundaries p fuel p.sections).map
    (fun l => dedupAdj (List.insertionSort (· ≤ ·) l))

/-! ### Spec-side helper definitions

These do not embed source code; they only name the observables the claims
speak about (block classification, the implied width of a real block, the
address the walk advances to). -/

/-- A real block: Instruction, Error, or Bytes (the spec's terminology
for the block kinds that consume address space). -/
def Block.isReal (b : Block) : Bool :=
  match b.content with
  | .instruction _ _ => true
  | .error _ _ => true
  | .bytes _ => true
  | _ => false

/-- Is the block a Label block. -/
def Block.isLabel (b : Block) : Bool :=
  match b.content with
  | .label _ => true
  | _ => false

/-- Is the block a SectionStart marker. -/
def Block.isSectionStart (b : Block) : Bool :=
  match b.content with
  | .sectionStart _ => true
  | _ => false

/-- Is the block a SectionEnd marker. -/
def Block.isSectionEnd (b : Block) : Bool :=
  match b.content with
  | .sectionEnd _ => true
  | _ => false

/-- The implied width of a real block produced at `addr`: the decoder's
instruction width, the decoder error's size, or the byte-run length. -/
def Processor.impliedWidth (p : Processor) (addr : Nat) (b : Block) : Option Nat :=
  match b.content with
  | .instruction _ _ => (p.instruction_by_addr addr).map p.instruction_width
  | .error _ _ => (p.error_by_addr addr).map (fun e => e.size)
  | .bytes bs => some bs.length
  | _ => none

/-- The address the per-section walk advances to from `a` inside section
`s`: past the instruction, past the error, or to the byte-run scan stop. -/
def Processor.stepAddr (p : Processor) (s : Section) (a : Nat) : Nat :=
  match p.instruction_by_addr a with
  | some inst => a + p.instruction_width inst
  | none =>
    match p.error_by_addr a with
    | some err => a + err.size
    | none => scanRunEnd p s.end_ a

/-- The relation holding between consecutive entries of a per-section
boundary list: equal entries (duplicate pushes), or a strict advance by
exactly one walk step from an in-section address. -/
def stepRel (p : Processor) (s : Section) (a b : Nat) : Prop :=
  a ≤ b ∧ (a < b → a < s.end_ ∧ p.stepAddr s a = b)

/-! ### Concrete engine states used by witnesses and counterexamples -/

/-- Scenario S1 of the spec: one section `[0, 16)` walked from its start,
a width-4 instruction at 0, nothing else decoded, no labels. -/
def secS1 : Section := ⟨"s1", 0, 0, 16, 0, fun _ => 171⟩

/-- The processor of scenario S1. -/
def pS1 : Processor :=
  ⟨[secS1], (fun a => if a = 0 then some 7 else none), (fun _ => 4), (fun _ => []),
   (fun _ => none), (fun _ => none), 8⟩

/-- A section whose walk start is past the section start (`addr = 2`,
`start = 0`): the spec allows a skipped leading region. -/
def secSkip : Section := ⟨"skip", 0, 0, 4, 2, fun _ => 0⟩

/-- A processor with nothing decoded at all over `secSkip`. -/
def pSkip : Processor :=
  ⟨[secSkip], (fun _ => none), (fun _ => 4), (fun _ => []),
   (fun _ => none), (fun _ => none), 8⟩

/-- A zero-width decoder item at address 0 of a section `[0, 4)`:
the decoder-invariant violation the spec discusses. -/
def secZero : Section := ⟨"zero", 0, 0, 4, 0, fun _ => 0⟩

/-- The processor whose decoder returns a width-0 instruction at 0. -/
def pZero : Processor :=
  ⟨[secZero], (fun a => if a = 0 then some 0 else none), (fun _ => 0), (fun _ => []),
   (fun _ => none), (fun _ => none), 8⟩

/-- Scenario S3: section `a` over `[0, 4)`. -/
def secA : Section := ⟨"a", 0, 0, 4, 0, fun _ => 1⟩

/-- Scenario S3: section `b` over `[4, 8)`, adjacent to `secA`. -/
def secB : Section := ⟨"b", 1, 4, 8, 4, fun _ => 2⟩

/-- Two adjacent sections, nothing decoded, no labels. -/
def pTwo : Processor :=
  ⟨[secA, secB], (fun _ => none), (fun _ => 4), (fun _ => []),
   (fun _ => none), (fun _ => none), 8⟩

/-- One section `[0, 8)` with a width-4 instruction at 0 and a function
symbol at address 2, strictly inside the instruction's byte span. -/
def secLab : Section := ⟨"lab", 0, 0, 8, 0, fun _ => 3⟩

/-- The processor with a label buried inside a decoded instruction. -/
def pLab : Processor :=
  ⟨[secLab], (fun a => if a = 0 then some 1 else none), (fun _ => 4), (fun _ => []),
   (fun _ => none), (fun a => if a = 2 then some ⟨[]⟩ else none), 8⟩

/-! ### Properties of the byte-run scan -/

theorem byteRunScan_le (p : Processor) (sEnd a : Nat) :
    ∀ fuel baddr, byteRunScan p sEnd a fuel baddr ≤ baddr + fuel := by
  intro fuel
  induction fuel with
  | zero => intro baddr; simp [byteRunScan]
  | succ n ih =>
    intro baddr
    unfold byteRunScan
    split
    · omega
    split
    · omega
    split
    · omega
    split
    · omega
    · have := ih (baddr + 1)
      omega

theorem byteRunScan_ge (p : Processor) (sEnd a : Nat) :
    ∀ fuel baddr, baddr ≤ byteRunScan p sEnd a fuel baddr := by
  intro fuel
  induction fuel with
  | zero => intro baddr; simp [byteRunScan]
  | succ n ih =>
    intro baddr
    unfold byteRunScan
    split
    · omega
    split
    · omega
    split
    · omega
    split
    · omega
    · have := ih (baddr + 1)
      omega

theorem byteRunScan_stop (p : Processor) (sEnd a : Nat) :
    ∀ fuel baddr, baddr + fuel = sEnd →
      byteRunScan p sEnd a fuel baddr = sEnd ∨
      (p.instruction_by_addr (byteRunScan p sEnd a fuel baddr)).isSome = true ∨
      (p.error_by_addr (byteRunScan p sEnd a fuel baddr)).isSome = true ∨
      (a ≠ byteRunScan p sEnd a fuel baddr ∧
        (p.get_func_by_addr (byteRunScan p sEnd a fuel baddr)).isSome = true) := by
  intro fuel
  induction fuel with
  | zero =>
    intro baddr hf
    simp only [byteRunScan]
    omega
  | succ n ih =>
    intro baddr hf
    unfold byteRunScan
    split
    · left; assumption
    split
    · right; left; assumption
    split
    · right; right; left; assumption
    split
    · right; right; right; assumption
    · exact ih (baddr + 1) (by omega)

theorem byteRunScan_scanned (p : Processor) (sEnd a : Nat) :
    ∀ fuel baddr x, baddr ≤ x → x < byteRunScan p sEnd a fuel baddr →
      p.instruction_by_addr x = none ∧ p.error_by_addr x = none ∧
      (x ≠ a → p.get_func_by_addr x = none) := by
  intro fuel
  induction fuel with
  | zero =>
    intro baddr x hge hlt
    simp only [byteRunScan] at hlt
    omega
  | succ n ih =>
    intro baddr x hge hlt
    unfold byteRunScan at hlt
    split at hlt
    · omega
    split at hlt
    · omega
    split at hlt
    · omega
    split at hlt
    · omega
    · rename_i hi he hfn
      rcases Nat.lt_or_ge baddr x with hx | hx
      · exact ih (baddr + 1) x hx hlt
      · have hbx : x = baddr := Nat.le_antisymm hx hge
        subst hbx
        refine ⟨Option.not_isSome_iff_eq_none.mp hi, Option.not_isSome_iff_eq_none.mp he, ?_⟩
        intro hxa
        rcases Decidable.not_and_iff_or_not.mp hfn with h | h
        · exact absurd (Ne.symm hxa) h
        · exact Option.not_isSome_iff_eq_none.mp h

/-- The scan never runs past the section end when it starts inside. -/
theorem scanRunEnd_le (p : Processor) {sEnd a : Nat} (h : a ≤ sEnd) :
    scanRunEnd p sEnd a ≤ sEnd := by
  have := byteRunScan_le p sEnd a (sEnd - a) a
  unfold scanRunEnd
  omega

theorem scanRunEnd_ge (p : Processor) (sEnd a : Nat) :
    a ≤ scanRunEnd p sEnd a :=
  byteRunScan_ge p sEnd a (sEnd - a) a

/-- Starting at or past the section end, the scan stops immediately. -/
theorem scanRunEnd_of_le (p : Processor) {sEnd a : Nat} (h : sEnd ≤ a) :
    scanRunEnd p sEnd a = a := by
  unfold scanRunEnd
  rw [Nat.sub_eq_zero_of_le h]
  simp [byteRunScan]

/-- The scan strictly advances when it starts strictly inside the section
at an address with no decoded item. -/
theorem scanRunEnd_progress (p : Processor) {sEnd a : Nat} (h : a < sEnd)
    (hi : p.instruction_by_addr a = none) (he : p.error_by_addr a = none) :
    a + 1 ≤ scanRunEnd p sEnd a := by
  unfold scanRunEnd
  have hf : sEnd - a = (sEnd - a - 1) + 1 := by omega
  rw [hf]
  unfold byteRunScan
  rw [if_neg (by omega), if_neg (by simp [hi]), if_neg (by simp [he]),
    if_neg (by simp)]
  exact byteRunScan_ge p sEnd a _ (a + 1)

/-- The scan's stop address satisfies one of the four stop conditions. -/
theorem scanRunEnd_stop (p : Processor) {sEnd a : Nat} (h : a ≤ sEnd) :
    scanRunEnd p sEnd a = sEnd ∨
    (p.instruction_by_addr (scanRunEnd p sEnd a)).isSome = true ∨
    (p.error_by_addr (scanRunEnd p sEnd a)).isSome = true ∨
    (a ≠ scanRunEnd p sEnd a ∧
      (p.get_func_by_addr (scanRunEnd p sEnd a)).isSome = true) :=
  byteRunScan_stop p sEnd a (sEnd - a) a (by omega)

/-- Every address the scan stepped over holds no instruction start, no
error start, and (except for the run's own start) no label. -/
theorem scanRunEnd_scanned (p : Processor) (sEnd a : Nat) :
    ∀ x, a ≤ x → x < scanRunEnd p sEnd a →
      p.instruction_by_addr x = none ∧ p.error_by_addr x = none ∧
      (x ≠ a → p.get_func_by_addr x = none) :=
  fun x hge hlt => byteRunScan_scanned p sEnd a (sEnd - a) a x hge hlt

/-! ### The walk relation: what the boundary loop pushes -/

/-- The boundary the loop pushes at a labelled address (step 2 of the
per-section algorithm). -/
def labelPushes (p : Processor) (addr : Nat) : List Nat :=
  if (p.get_func_by_addr addr).isSome then [addr] else []

/-- `Walk p s addr t`: starting the per-section loop of
`compute_section_boundaries` at `addr`, the loop terminates and pushes
exactly the boundary list `t` before the final `section.end` push.  One
constructor per branch of the loop body. -/
inductive Walk (p : Processor) (s : Section) : Nat → List Nat → Prop where
  | done : Walk p s s.end_ []
  | inst (addr : Nat) (i : Inst) (t : List Nat) :
      addr ≠ s.end_ → p.instruction_by_addr addr = some i →
      Walk p s (addr + p.instruction_width i) t →
      Walk p s addr (labelPushes p addr ++ addr :: t)
  | err (addr : Nat) (e : DecError) (t : List Nat) :
      addr ≠ s.end_ → p.instruction_by_addr addr = none →
      p.error_by_addr addr = some e →
      Walk p s (addr + e.size) t →
      Walk p s addr (labelPushes p addr ++ addr :: t)
  | run (addr : Nat) (t : List Nat) :
      addr ≠ s.end_ → p.instruction_by_addr addr = none →
      p.error_by_addr addr = none →
      addr < scanRunEnd p s.end_ addr →
      Walk p s (scanRunEnd p s.end_ addr) t →
      Walk p s addr (labelPushes p addr ++ addr :: t)

/-- A walk position never lies past the section end. -/
theorem Walk.le_end {p : Processor} {s : Section} {addr : Nat} {t : List Nat}
    (hw : Walk p s addr t) : addr ≤ s.end_ := by
  induction hw with
  | done => exact Nat.le_refl _
  | inst addr i t hne hi hw ih => omega
  | err addr e t hne hi he hw ih => omega
  | run addr t hne hi he hpr hw ih => omega

/-- The first entry of `t ++ [s.end_]` is the walk's start address. -/
theorem Walk.head_append {p : Processor} {s : Section} {addr : Nat} {t : List Nat}
    (hw : Walk p s addr t) : (t ++ [s.end_]).head? = some addr := by
  cases hw with
  | done => rfl
  | inst addr i t hne hi hw =>
    cases h : (p.get_func_by_addr addr).isSome <;> simp [labelPushes, h]
  | err addr e t hne hi he hw =>
    cases h : (p.get_func_by_addr addr).isSome <;> simp [labelPushes, h]
  | run addr t hne hi he hpr hw =>
    cases h : (p.get_func_by_addr addr).isSome <;> simp [labelPushes, h]

/-- A walk that pushes nothing started at the section end. -/
theorem Walk.nil_eq {p : Processor} {s : Section} {addr : Nat}
    (hw : Walk p s addr []) : addr = s.end_ := by
  have h := hw.head_append
  simp only [List.nil_append, List.head?_cons, Option.some.injEq] at h
  exact h.symm

/-- Every pushed boundary lies between the walk's start and the section
end. -/
theorem Walk.mem_bounds {p : Processor} {s : Section} {addr : Nat} {t : List Nat}
    (hw : Walk p s addr t) : ∀ x ∈ t, addr ≤ x ∧ x ≤ s.end_ := by
  induction hw with
  | done => intro x hx; cases hx
  | inst addr i t hne hi hw ih =>
    intro x hx
    have hle : addr ≤ s.end_ := by have := hw.le_end; omega
    rcases List.mem_append.mp hx with hx | hx
    · have : x = addr := by
        cases h : (p.get_func_by_addr addr).isSome <;> simp_all [labelPushes]
      omega
    · rcases List.mem_cons.mp hx with rfl | hx
      · omega
      · have := ih x hx
        omega
  | err addr e t hne hi he hw ih =>
    intro x hx
    have hle : addr ≤ s.end_ := by have := hw.le_end; omega
    rcases List.mem_append.mp hx with hx | hx
    · have : x = addr := by
        cases h : (p.get_func_by_addr addr).isSome <;> simp_all [labelPushes]
      omega
    · rcases List.mem_cons.mp hx with rfl | hx
      · omega
      · have := ih x hx
        omega
  | run addr t hne hi he hpr hw ih =>
    intro x hx
    have hle : addr ≤ s.end_ := by have := hw.le_end; omega
    rcases List.mem_append.mp hx with hx | hx
    · have : x = addr := by
        cases h : (p.get_func_by_addr addr).isSome <;> simp_all [labelPushes]
      omega
    · rcases List.mem_cons.mp hx with rfl | hx
      · omega
      · have := ih x hx
        omega

/-- The loop never finishes once the address is strictly past the
section end: `addr` never again equals `s.end_`. -/
theorem sectionBoundariesLoop_none_of_gt (p : Processor) (s : Section) :
    ∀ fuel addr acc, s.end_ < addr →
      sectionBoundariesLoop p s fuel addr acc = none := by
  intro fuel
  induction fuel with
  | zero => intro addr acc h; rfl
  | succ n ih =>
    intro addr acc h
    unfold sectionBoundariesLoop
    rw [if_neg (by omega)]
    rcases hi : p.instruction_by_addr addr with _ | i
    · rcases he : p.error_by_addr addr with _ | e
      · simp only
        have hs : scanRunEnd p s.end_ addr = addr :=
          scanRunEnd_of_le p (by omega)
        rw [hs]
        rw [if_neg (by omega)]
        exact ih addr _ h
      · simp only
        exact ih (addr + e.size) _ (by omega)
    · simp only
      exact ih (addr + p.instruction_width i) _ (by omega)

/-- A finished loop pushed exactly a walk's boundary list after the
accumulator it was started with. -/
theorem sectionBoundariesLoop_some_walk (p : Processor) (s : Section) :
    ∀ fuel addr acc out,
      sectionBoundariesLoop p s fuel addr acc = some out →
      ∃ t, out = acc ++ t ∧ Walk p s addr t := by
  intro fuel
  induction fuel with
  | zero => intro addr acc out h; cases h
  | succ n ih =>
    intro addr acc out h
    unfold sectionBoundariesLoop at h
    split at h
    · rename_i hend
      refine ⟨[], ?_, ?_⟩
      · cases h; simp
      · subst hend; exact Walk.done
    · rename_i hend
      rcases hi : p.instruction_by_addr addr with _ | i
      · rw [hi] at h
        rcases he : p.error_by_addr addr with _ | e
        · rw [he] at h
          simp only at h
          split at h
          · rename_i hlen
            rcases ih _ _ _ h with ⟨t, hout, hw⟩
            refine ⟨labelPushes p addr ++ addr :: t, ?_, ?_⟩
            · subst hout
              cases hf : (p.get_func_by_addr addr).isSome <;>
                simp [labelPushes, hf]
            · exact Walk.run addr t hend hi he (by omega) hw
          · rename_i hlen
            have hsc : scanRunEnd p s.end_ addr = addr := by
              have := scanRunEnd_ge p s.end_ addr
              omega
            have hgt : s.end_ < addr := by
              rcases Nat.lt_or_ge addr s.end_ with hlt | hge
              · have := scanRunEnd_progress p hlt hi he
                omega
              · omega
            rw [sectionBoundariesLoop_none_of_gt p s n addr _ hgt] at h
            cases h
        · rw [he] at h
          simp only at h
          rcases ih _ _ _ h with ⟨t, hout, hw⟩
          refine ⟨labelPushes p addr ++ addr :: t, ?_, ?_⟩
          · subst hout
            cases hf : (p.get_func_by_addr addr).isSome <;>
              simp [labelPushes, hf]
          · exact Walk.err addr e t hend hi he hw
      · rw [hi] at h
        simp only at h
        rcases ih _ _ _ h with ⟨t, hout, hw⟩
        refine ⟨labelPushes p addr ++ addr :: t, ?_, ?_⟩
        · subst hout
          cases hf : (p.get_func_by_addr addr).isSome <;>
            simp [labelPushes, hf]
        · exact Walk.inst addr i t hend hi hw

/-- A produced per-section boundary list is `section.start`, then a
walk's pushes from `section.addr`, then `section.end`. -/
theorem compute_section_boundaries_walk {p : Processor} {s : Section}
    {fuel : Nat} {l : List Nat}
    (h : p.compute_section_boundaries s fuel = some l) :
    ∃ t, l = s.start :: (t ++ [s.end_]) ∧ Walk p s s.addr t := by
  unfold Processor.compute_section_boundaries at h
  rcases Option.map_eq_some'.mp h with ⟨out, hout, hl⟩
  rcases sectionBoundariesLoop_some_walk p s fuel s.addr [s.start] out hout with
    ⟨t, hacc, hw⟩
  exact ⟨t, by subst hl hacc; simp, hw⟩

/-- `stepRel` is reflexive. -/
theorem stepRel_refl (p : Processor) (s : Section) (a : Nat) : stepRel p s a a :=
  ⟨Nat.le_refl _, fun h => absurd h (Nat.lt_irrefl _)⟩

/-- Extending a step chain one link to the left, onto an address whose
walk step reaches the chain's start. -/
theorem chain'_walk_cons {p : Processor} {s : Section} {addr next : Nat}
    {t' : List Nat} (hw' : Walk p s next t')
    (ih : List.Chain' (stepRel p s) (next :: (t' ++ [s.end_])))
    (hle : addr ≤ next) (hltend : addr < s.end_)
    (hstep : p.stepAddr s addr = next) :
    List.Chain' (stepRel p s) (addr :: (t' ++ [s.end_])) := by
  refine List.chain'_cons'.mpr ⟨?_, (List.chain'_cons'.mp ih).2⟩
  intro y hy
  rw [hw'.head_append] at hy
  cases hy
  exact ⟨hle, fun _ => ⟨hltend, hstep⟩⟩

/-- Consecutive entries of a walk's boundary list (with the closing
`section.end`) are related by `stepRel`: equal, or one walk step apart. -/
theorem Walk.chain {p : Processor} {s : Section} {addr : Nat} {t : List Nat}
    (hw : Walk p s addr t) :
    List.Chain' (stepRel p s) (addr :: (t ++ [s.end_])) := by
  induction hw with
  | done =>
    exact List.chain'_cons.mpr ⟨stepRel_refl p s _, List.chain'_singleton _⟩
  | inst addr i t hne hi hw ih =>
    have hltend : addr < s.end_ := by have := hw.le_end; omega
    have hstep : p.stepAddr s addr = addr + p.instruction_width i := by
      unfold Processor.stepAddr; rw [hi]
    have hcore := chain'_walk_cons hw ih (by omega) hltend hstep
    cases hf : (p.get_func_by_addr addr).isSome <;>
      simp only [labelPushes, hf, if_true, if_false, List.cons_append,
        List.nil_append, List.append_assoc, List.singleton_append]
    · exact List.chain'_cons.mpr ⟨stepRel_refl p s _, hcore⟩
    · exact List.chain'_cons.mpr ⟨stepRel_refl p s _,
        List.chain'_cons.mpr ⟨stepRel_refl p s _, hcore⟩⟩
  | err addr e t hne hi he hw ih =>
    have hltend : addr < s.end_ := by have := hw.le_end; omega
    have hstep : p.stepAddr s addr = addr + e.size := by
      unfold Processor.stepAddr; rw [hi, he]
    have hcore := chain'_walk_cons hw ih (by omega) hltend hstep
    cases hf : (p.get_func_by_addr addr).isSome <;>
      simp only [labelPushes, hf, if_true, if_false, List.cons_append,
        List.nil_append, List.append_assoc, List.singleton_append]
    · exact List.chain'_cons.mpr ⟨stepRel_refl p s _, hcore⟩
    · exact List.chain'_cons.mpr ⟨stepRel_refl p s _,
        List.chain'_cons.mpr ⟨stepRel_refl p s _, hcore⟩⟩
  | run addr t hne hi he hpr hw ih =>
    have hltend : addr < s.end_ := by have := hw.le_end; omega
    have hstep : p.stepAddr s addr = scanRunEnd p s.end_ addr := by
      unfold Processor.stepAddr; rw [hi, he]
    have hcore := chain'_walk_cons hw ih (by omega) hltend hstep
    cases hf : (p.get_func_by_addr addr).isSome <;>
      simp only [labelPushes, hf, if_true, if_false, List.cons_append,
        List.nil_append, List.append_assoc, List.singleton_append]
    · exact List.chain'_cons.mpr ⟨stepRel_refl p s _, hcore⟩
    · exact List.chain'_cons.mpr ⟨stepRel_refl p s _,
        List.chain'_cons.mpr ⟨stepRel_refl p s _, hcore⟩⟩

/-- Consecutive entries of a `Chain'` list are related. -/
theorem chain'_pair {R : Nat → Nat → Prop} {l : List Nat}
    (hch : List.Chain' R l) {i a b : Nat}
    (ha : l[i]? = some a) (hb : l[i + 1]? = some b) : R a b := by
  rcases List.getElem?_eq_some.mp ha with ⟨hia, ha'⟩
  rcases List.getElem?_eq_some.mp hb with ⟨hib, hb'⟩
  have h := List.chain'_iff_get.mp hch i (by omega)
  rw [List.get_eq_getElem, List.get_eq_getElem] at h
  rw [ha', hb'] at h
  exact h

/-- A produced per-section boundary list, with `s.start ≤ s.addr` (the
documented section invariant), is a non-decreasing chain. -/
theorem compute_section_boundaries_chain_le {p : Processor} {s : Section}
    {fuel : Nat} {l : List Nat}
    (h : p.compute_section_boundaries s fuel = some l)
    (hsa : s.start ≤ s.addr) :
    List.Chain' (· ≤ ·) l := by
  rcases compute_section_boundaries_walk h with ⟨t, hl, hw⟩
  have hch : List.Chain' (fun a b => a ≤ b) (s.addr :: (t ++ [s.end_])) :=
    hw.chain.imp (fun a b hr => hr.1)
  subst hl
  refine List.chain'_cons'.mpr ⟨?_, (List.chain'_cons'.mp hch).2⟩
  intro y hy
  rw [hw.head_append] at hy
  cases hy
  exact hsa

/-- With the walk starting at `s.start` itself, the whole produced list
is a `stepRel` chain. -/
theorem compute_section_boundaries_chain_step {p : Processor} {s : Section}
    {fuel : Nat} {l : List Nat}
    (h : p.compute_section_boundaries s fuel = some l)
    (hstart : s.addr = s.start) :
    List.Chain' (stepRel p s) l := by
  rcases compute_section_boundaries_walk h with ⟨t, hl, hw⟩
  subst hl
  rw [← hstart]
  exact hw.chain

/-- A produced per-section boundary list is sorted non-decreasing. -/
theorem compute_section_boundaries_sorted {p : Processor} {s : Section}
    {fuel : Nat} {l : List Nat}
    (h : p.compute_section_boundaries s fuel = some l)
    (hsa : s.start ≤ s.addr) :
    List.Sorted (· ≤ ·) l :=
  List.chain'_iff_pairwise.mp (compute_section_boundaries_chain_le h hsa)

/-- Every element of a produced per-section boundary list lies in
`[s.start, s.end]`. -/
theorem compute_section_boundaries_mem {p : Processor} {s : Section}
    {fuel : Nat} {l : List Nat}
    (h : p.compute_section_boundaries s fuel = some l)
    (hsa : s.start ≤ s.addr) :
    ∀ x ∈ l, s.start ≤ x ∧ x ≤ s.end_ := by
  rcases compute_section_boundaries_walk h with ⟨t, hl, hw⟩
  subst hl
  intro x hx
  have hae : s.addr ≤ s.end_ := hw.le_end
  rcases List.mem_cons.mp hx with rfl | hx
  · exact ⟨Nat.le_refl _, by omega⟩
  · rcases List.mem_append.mp hx with hx | hx
    · have := hw.mem_bounds x hx
      omega
    · rcases List.mem_singleton.mp hx with rfl
      exact ⟨by omega, Nat.le_refl _⟩

/-! ### Decomposing the output of `parse_blocks` -/

/-- The marker prefix `parse_blocks` emits (spec-side name for the
`markers` local of the source). -/
def sectionMarkers (p : Processor) (addr : Nat) : List Block :=
  match p.sections.find? (fun sec => sec.start == addr),
        p.sections.find? (fun sec => sec.end_ == addr) with
  | some st, some en => [⟨addr, .sectionEnd en⟩, ⟨addr, .sectionStart st⟩]
  | some st, none => [⟨addr, .sectionStart st⟩]
  | none, some en => [⟨addr, .sectionEnd en⟩]
  | none, none => []

/-- The suffix `parse_blocks` emits after the markers: nothing, or the
real block preceded by a label when the symbol index has a function at
`addr`. -/
def labelledReal (p : Processor) (addr : Nat) : Option Block → List Block
  | none => []
  | some real =>
    match p.get_func_by_addr addr with
    | some symbol => [⟨addr, .label symbol⟩, real]
    | none => [real]

/-- When `parse_data_or_code` does not fault, `parse_blocks` returns the
section markers followed by the optional label and real block. -/
theorem parse_blocks_ok (p : Processor) (addr : Nat) {ob : Option Block}
    (hdc : p.parse_data_or_code addr = Except.ok ob) :
    p.parse_blocks addr = Except.ok (sectionMarkers p addr ++ labelledReal p addr ob) := by
  unfold Processor.parse_blocks
  rw [hdc]
  rcases ob with _ | real
  · simp only [labelledReal, List.append_nil]
    rfl
  · simp only [labelledReal]
    rcases hf : p.get_func_by_addr addr with _ | sym <;>
      simp only [sectionMarkers]

/-- Marker blocks are section markers at the queried address, never real
and never labels. -/
theorem sectionMarkers_shape (p : Processor) (addr : Nat) :
    ∀ b ∈ sectionMarkers p addr,
      b.addr = addr ∧ b.isReal = false ∧ b.isLabel = false ∧
      (b.isSectionStart = true ∨ b.isSectionEnd = true) := by
  unfold sectionMarkers
  split <;> intro b hb
  · rcases List.mem_cons.mp hb with rfl | hb'
    · exact ⟨rfl, rfl, rfl, Or.inr rfl⟩
    · rcases List.mem_singleton.mp hb' with rfl
      exact ⟨rfl, rfl, rfl, Or.inl rfl⟩
  · rcases List.mem_singleton.mp hb with rfl
    exact ⟨rfl, rfl, rfl, Or.inl rfl⟩
  · rcases List.mem_singleton.mp hb with rfl
    exact ⟨rfl, rfl, rfl, Or.inr rfl⟩
  · cases hb

/-- The marker prefix never contributes a real block. -/
theorem sectionMarkers_filter_real (p : Processor) (addr : Nat) :
    (sectionMarkers p addr).filter Block.isReal = [] := by
  unfold sectionMarkers
  split <;> rfl

/-- Any block produced by `parse_data_or_code` is a real block carrying
the queried address. -/
theorem parse_data_or_code_real {p : Processor} {addr : Nat} {ob : Option Block}
    (hdc : p.parse_data_or_code addr = Except.ok ob) :
    ∀ b, ob = some b → b.addr = addr ∧ b.isReal = true := by
  unfold Processor.parse_data_or_code at hdc
  rcases hs : p.section_by_addr addr with _ | sec <;> rw [hs] at hdc
  · cases hdc
  · rcases hi : p.instruction_by_addr addr with _ | i <;> rw [hi] at hdc
    · rcases he : p.error_by_addr addr with _ | e <;> rw [he] at hdc
      · simp only at hdc
        split at hdc
        · cases hdc
          rintro b ⟨rfl⟩
          exact ⟨rfl, rfl⟩
        · cases hdc
          rintro b h
          cases h
      · simp only at hdc
        cases hdc
        rintro b ⟨rfl⟩
        exact ⟨rfl, rfl⟩
    · simp only at hdc
      cases hdc
      rintro b ⟨rfl⟩
      exact ⟨rfl, rfl⟩

/-- At an address strictly inside the section `section_by_addr` returns,
`parse_data_or_code` yields exactly one real block whose implied width is
the walk step out of that address. -/
theorem parse_data_or_code_width {p : Processor} {addr : Nat} {s : Section}
    (hsec : p.section_by_addr addr = some s) (hlt : addr < s.end_) :
    ∃ b, p.parse_data_or_code addr = Except.ok (some b) ∧ b.addr = addr ∧
      b.isReal = true ∧ p.impliedWidth addr b = some (p.stepAddr s addr - addr) := by
  unfold Processor.parse_data_or_code
  rw [hsec]
  rcases hi : p.instruction_by_addr addr with _ | i
  · rcases he : p.error_by_addr addr with _ | e
    · have hpr := scanRunEnd_progress p hlt hi he
      refine ⟨⟨addr, .bytes (s.bytes_by_addr addr (scanRunEnd p s.end_ addr - addr))⟩,
        ?_, rfl, rfl, ?_⟩
      · simp only
        rw [if_pos (by omega)]
      · unfold Processor.impliedWidth Processor.stepAddr
        rw [hi, he]
        simp [Section.bytes_by_addr]
    · refine ⟨⟨addr, .error e.kind (encode_hex_bytes_truncated
        (s.bytes_by_addr addr e.size) (p.max_instruction_width * 3 + 1) true)⟩,
        by simp only, rfl, rfl, ?_⟩
      unfold Processor.impliedWidth Processor.stepAddr
      rw [hi, he]
      simp
  · refine ⟨⟨addr, .instruction (p.instruction_tokens i) (encode_hex_bytes_truncated
      (s.bytes_by_addr addr (p.instruction_width i)) (p.max_instruction_width * 3 + 1) true)⟩,
      by simp only, rfl, rfl, ?_⟩
    unfold Processor.impliedWidth Processor.stepAddr
    rw [hi]
    simp

/-- Inversion: a Bytes block out of `parse_data_or_code` comes from the
byte-run branch, so the decoder is silent at its start and the byte
vector is the scanned slice. -/
theorem parse_data_or_code_bytes_inv {p : Processor} {addr a' : Nat} {s : Section}
    {ob : Option Block} {bs : List Nat}
    (hsec : p.section_by_addr addr = some s)
    (hdc : p.parse_data_or_code addr = Except.ok ob)
    (hb : ob = some ⟨a', .bytes bs⟩) :
    bs = s.bytes_by_addr addr (scanRunEnd p s.end_ addr - addr) ∧
    addr < scanRunEnd p s.end_ addr ∧
    p.instruction_by_addr addr = none ∧ p.error_by_addr addr = none := by
  subst hb
  unfold Processor.parse_data_or_code at hdc
  rw [hsec] at hdc
  rcases hi : p.instruction_by_addr addr with _ | i <;> rw [hi] at hdc
  · rcases he : p.error_by_addr addr with _ | e <;> rw [he] at hdc
    · simp only at hdc
      split at hdc
      · rename_i hlen
        cases hdc
        exact ⟨rfl, by omega, rfl, rfl⟩
      · cases hdc
    · simp only at hdc
      cases hdc
  · simp only at hdc
    cases hdc

/-- `section_by_addr` only returns a section whose closed range `[start,
end]` contains the address. -/
theorem section_by_addr_mem_le {p : Processor} {addr : Nat} {s : Section}
    (h : p.section_by_addr addr = some s) :
    s ∈ p.sections ∧ addr ≤ s.end_ := by
  unfold Processor.section_by_addr at h
  split at h
  · rename_i t hfind
    cases h
    have hp := List.find?_some hfind
    have hm := List.mem_of_find?_eq_some hfind
    simp only [decide_eq_true_eq] at hp
    exact ⟨hm, by omega⟩
  · have hp := List.find?_some h
    have hm := List.mem_of_find?_eq_some h
    simp only [decide_eq_true_eq] at hp
    exact ⟨hm, by omega⟩

/-! ### Sorting, deduplication and join order -/

theorem mem_dedupAdj : ∀ (l : List Nat) (x : Nat), x ∈ dedupAdj l ↔ x ∈ l
  | [], _ => Iff.rfl
  | [_], _ => Iff.rfl
  | a :: b :: rest, x => by
    unfold dedupAdj
    split
    · rename_i hab
      subst hab
      rw [mem_dedupAdj (a :: rest) x]
      simp only [List.mem_cons]
      tauto
    · rw [List.mem_cons, mem_dedupAdj (b :: rest) x]
      simp only [List.mem_cons]

/-- Deduplicating adjacent equals turns a non-decreasing list into a
strictly increasing one. -/
theorem dedupAdj_sorted : ∀ l : List Nat,
    List.Sorted (· ≤ ·) l → List.Sorted (· < ·) (dedupAdj l)
  | [], _ => List.sorted_nil
  | [a], _ => List.sorted_singleton a
  | a :: b :: rest, h => by
    have h1 : ∀ x ∈ b :: rest, a ≤ x := (List.pairwise_cons.mp h).1
    have htail : List.Sorted (· ≤ ·) (b :: rest) := (List.pairwise_cons.mp h).2
    unfold dedupAdj
    split
    · exact dedupAdj_sorted (b :: rest) htail
    · rename_i hab
      rw [List.sorted_cons]
      refine ⟨?_, dedupAdj_sorted (b :: rest) htail⟩
      intro x hx
      have hx' : x ∈ b :: rest := (mem_dedupAdj _ x).mp hx
      have hab' : a ≤ b := h1 b (List.mem_cons_self b rest)
      rcases List.mem_cons.mp hx' with rfl | hx2
      · omega
      · have hbx : b ≤ x := (List.pairwise_cons.mp htail).1 x hx2
        omega

/-- Two unstable-sort runs over permuted inputs agree. -/
theorem insertionSort_eq_of_perm {l₁ l₂ : List Nat} (h : l₁.Perm l₂) :
    List.insertionSort (· ≤ ·) l₁ = List.insertionSort (· ≤ ·) l₂ :=
  List.eq_of_perm_of_sorted
    ((List.perm_insertionSort _ l₁).trans (h.trans (List.perm_insertionSort _ l₂).symm))
    (List.sorted_insertionSort _ l₁) (List.sorted_insertionSort _ l₂)

/-- Relation between two optional merged boundary lists: both
unavailable, or available up to permutation. -/
def OptPerm : Option (List Nat) → Option (List Nat) → Prop
  | none, none => True
  | some l₁, some l₂ => l₁.Perm l₂
  | _, _ => False

theorem OptPerm.trans' {o₁ o₂ o₃ : Option (List Nat)}
    (h₁ : OptPerm o₁ o₂) (h₂ : OptPerm o₂ o₃) : OptPerm o₁ o₃ := by
  cases o₁ <;> cases o₂ <;> cases o₃ <;>
    simp only [OptPerm] at h₁ h₂ ⊢
  exact h₁.trans h₂

/-- Joining the per-section worker results in any completion order gives
the same multiset of boundaries (and fails exactly when some worker
fails). -/
theorem joinSectionBoundaries_perm (p : Processor) (fuel : Nat)
    {secs₁ secs₂ : List Section} (h : secs₁.Perm secs₂) :
    OptPerm (joinSectionBoundaries p fuel secs₁)
      (joinSectionBoundaries p fuel secs₂) := by
  induction h with
  | nil => exact List.Perm.refl []
  | cons s hp ih =>
    rename_i t₁ t₂
    unfold joinSectionBoundaries
    cases hc : p.compute_section_boundaries s fuel
    · cases j1 : joinSectionBoundaries p fuel t₁ <;>
        cases j2 : joinSectionBoundaries p fuel t₂ <;> trivial
    · cases j1 : joinSectionBoundaries p fuel t₁ <;>
        cases j2 : joinSectionBoundaries p fuel t₂ <;>
        rw [j1, j2] at ih
      · trivial
      · exact absurd ih (by simp [OptPerm])
      · exact absurd ih (by simp [OptPerm])
      · exact List.Perm.append_left _ ih
  | swap x y t =>
    simp only [joinSectionBoundaries]
    cases hx : p.compute_section_boundaries x fuel <;>
      cases hy : p.compute_section_boundaries y fuel <;>
      cases hj : joinSectionBoundaries p fuel t <;>
      (simp only [OptPerm]; try trivial)
    rename_i lx ly jt
    rw [← List.append_assoc, ← List.append_assoc]
    exact List.perm_append_comm.append_right jt
  | trans h₁ h₂ ih₁ ih₂ => exact ih₁.trans' ih₂

/-- `parse_blocks` propagates the `parse_data_or_code` fault. -/
theorem parse_blocks_error {p : Processor} {addr : Nat} {e : String}
    (hdc : p.parse_data_or_code addr = Except.error e) :
    p.parse_blocks addr = Except.error e := by
  unfold Processor.parse_blocks
  rw [hdc]

/-- In a non-decreasing list, earlier entries are at most later ones. -/
theorem sorted_le_getElem {l : List Nat} (h : List.Sorted (· ≤ ·) l) {i j : Nat}
    (hi : i < l.length) (hj : j < l.length) (hij : i < j) : l[i] ≤ l[j] := by
  have := List.pairwise_iff_get.mp h ⟨i, hi⟩ ⟨j, hj⟩ (Fin.mk_lt_mk.mpr hij)
  simpa using this

/-- One loop iteration over a decoded instruction. -/
theorem sectionBoundariesLoop_step_inst {p : Processor} {s : Section}
    {fuel addr : Nat} {acc : List Nat} {i : Inst}
    (hne : addr ≠ s.end_) (hi : p.instruction_by_addr addr = some i) :
    sectionBoundariesLoop p s (fuel + 1) addr acc =
      sectionBoundariesLoop p s fuel (addr + p.instruction_width i)
        ((if (p.get_func_by_addr addr).isSome then acc ++ [addr] else acc) ++ [addr]) := by
  conv_lhs => unfold sectionBoundariesLoop
  rw [if_neg hne, hi]

/-- One loop iteration over a decoder error. -/
theorem sectionBoundariesLoop_step_err {p : Processor} {s : Section}
    {fuel addr : Nat} {acc : List Nat} {e : DecError}
    (hne : addr ≠ s.end_) (hi : p.instruction_by_addr addr = none)
    (he : p.error_by_addr addr = some e) :
    sectionBoundariesLoop p s (fuel + 1) addr acc =
      sectionBoundariesLoop p s fuel (addr + e.size)
        ((if (p.get_func_by_addr addr).isSome then acc ++ [addr] else acc) ++ [addr]) := by
  conv_lhs => unfold sectionBoundariesLoop
  rw [if_neg hne, hi, he]

/-- One loop iteration over a nonempty byte run. -/
theorem sectionBoundariesLoop_step_run {p : Processor} {s : Section}
    {fuel addr : Nat} {acc : List Nat}
    (hne : addr ≠ s.end_) (hi : p.instruction_by_addr addr = none)
    (he : p.error_by_addr addr = none)
    (hpr : addr < scanRunEnd p s.end_ addr) :
    sectionBoundariesLoop p s (fuel + 1) addr acc =
      sectionBoundariesLoop p s fuel (scanRunEnd p s.end_ addr)
        ((if (p.get_func_by_addr addr).isSome then acc ++ [addr] else acc) ++ [addr]) := by
  conv_lhs => unfold sectionBoundariesLoop
  rw [if_neg hne, hi, he]
  simp only
  rw [if_pos (by omega)]

/-- The loop finishes with fuel one larger than the remaining distance
when every decoded item in the section has positive width and stays
inside the section. -/
theorem sectionBoundariesLoop_terminates (p : Processor) (s : Section)
    (hw : ∀ a i, a < s.end_ → p.instruction_by_addr a = some i →
      1 ≤ p.instruction_width i ∧ a + p.instruction_width i ≤ s.end_)
    (he : ∀ a e, a < s.end_ → p.error_by_addr a = some e →
      1 ≤ e.size ∧ a + e.size ≤ s.end_) :
    ∀ n addr acc, addr ≤ s.end_ → s.end_ - addr ≤ n →
      ∃ out, sectionBoundariesLoop p s (n + 1) addr acc = some out := by
  intro n
  induction n with
  | zero =>
    intro addr acc hle hn
    have heq : addr = s.end_ := by omega
    subst heq
    exact ⟨acc, by unfold sectionBoundariesLoop; rw [if_pos rfl]⟩
  | succ n ih =>
    intro addr acc hle hn
    by_cases hend : addr = s.end_
    · subst hend
      exact ⟨acc, by unfold sectionBoundariesLoop; rw [if_pos rfl]⟩
    · have hlt : addr < s.end_ := by omega
      rcases hi : p.instruction_by_addr addr with _ | i
      · rcases herr : p.error_by_addr addr with _ | e
        · have hpr := scanRunEnd_progress p hlt hi herr
          have hscle := scanRunEnd_le p (Nat.le_of_lt hlt)
          rcases ih (scanRunEnd p s.end_ addr) _ hscle (by omega) with ⟨out, hout⟩
          exact ⟨out, by rw [sectionBoundariesLoop_step_run hend hi herr (by omega)]; exact hout⟩
        · rcases he addr e hlt herr with ⟨he1, he2⟩
          rcases ih (addr + e.size) _ he2 (by omega) with ⟨out, hout⟩
          exact ⟨out, by rw [sectionBoundariesLoop_step_err hend hi herr]; exact hout⟩
      · rcases hw addr i hlt hi with ⟨hw1, hw2⟩
        rcases ih (addr + p.instruction_width i) _ hw2 (by omega) with ⟨out, hout⟩
        exact ⟨out, by rw [sectionBoundariesLoop_step_inst hend hi]; exact hout⟩

/-- At the zero-width instruction of `pZero`, the loop re-processes
address 0 forever, whatever the fuel. -/
theorem pZero_loop_none : ∀ fuel acc,
    sectionBoundariesLoop pZero secZero fuel 0 acc = none := by
  intro fuel
  induction fuel with
  | zero => intro acc; rfl
  | succ n ih =>
    intro acc
    rw [sectionBoundariesLoop_step_inst (by decide) (by rfl)]
    exact ih _

/-! ## The claims -/

/-- C1: the claim says `len()` of every block is at most 100, with a
`Bytes` block over `n` bytes reporting `min(ceil(n/32), 100)` — so 100
for a 4096-byte run.  The code (`Block::len`, `blocks.rs` lines 49-58)
computes `bytes.len() / 32 + 1` with no cap: a Bytes block holding 4096
bytes reports `len() = 129`, contradicting the claimed bound (and the
method's own doc comment, since `Block::tokenize` renders at most 100
lines via `chunks(32).take(100)`). -/
theorem claim_C1_len_bytes_uncapped :
    (Block.mk 0 (.bytes (List.replicate 4096 0))).len = 129 ∧
    ¬(Block.mk 0 (.bytes (List.replicate 4096 0))).len ≤ 100 := by
  have h : (Block.mk 0 (.bytes (List.replicate 4096 0))).len = 129 := by
    show (List.replicate 4096 (0 : Nat)).length / 32 + 1 = 129
    rw [List.length_replicate]
  exact ⟨h, by omega⟩

/-- C2 counterexample: over scenario S1 (section `[0,16)`, width-4
instruction at 0) the per-section boundary list is `[0, 0, 4, 16]` — the
initial `section.start` push is repeated by the instruction push at the
same address — so the list is not strictly increasing. -/
theorem claim_C2_counterexample :
    pS1.compute_section_boundaries secS1 20 = some [0, 0, 4, 16] ∧
    ¬ List.Sorted (· < ·) ([0, 0, 4, 16] : List Nat) := by
  constructor
  · rfl
  · intro hs
    exact absurd ((List.pairwise_cons.mp hs).1 0 (List.mem_cons_self _ _))
      (Nat.lt_irrefl 0)

/-- C2 amended: a produced per-section boundary list starts with
`s.start`, ends with `s.end`, stays inside `[s.start, s.end]`, and is
sorted non-decreasing — but it may contain duplicates (`s.start` again
when an item starts there, and a labelled address once for the label and
once for the item), so it is not strictly increasing; strictness holds
only after the merge's sort-and-dedup. -/
theorem claim_C2_amended (p : Processor) (s : Section) (fuel : Nat)
    (l : List Nat) (hsa : s.start ≤ s.addr)
    (h : p.compute_section_boundaries s fuel = some l) :
    l.head? = some s.start ∧ l.getLast? = some s.end_ ∧
    (∀ x ∈ l, s.start ≤ x ∧ x ≤ s.end_) ∧ List.Sorted (· ≤ ·) l := by
  refine ⟨?_, ?_, compute_section_boundaries_mem h hsa,
    compute_section_boundaries_sorted h hsa⟩
  · rcases compute_section_boundaries_walk h with ⟨t, hl, hw⟩
    subst hl
    rfl
  · rcases compute_section_boundaries_walk h with ⟨t, hl, hw⟩
    subst hl
    show ((s.start :: t) ++ [s.end_]).getLast? = some s.end_
    exact List.getLast?_concat _

/-- C2 witness: the amended statement evaluated over scenario S1. -/
theorem claim_C2_witness :
    ([0, 0, 4, 16] : List Nat).head? = some secS1.start ∧
    ([0, 0, 4, 16] : List Nat).getLast? = some secS1.end_ ∧
    (∀ x ∈ ([0, 0, 4, 16] : List Nat), secS1.start ≤ x ∧ x ≤ secS1.end_) ∧
    List.Sorted (· ≤ ·) ([0, 0, 4, 16] : List Nat) :=
  claim_C2_amended pS1 secS1 20 [0, 0, 4, 16] (by decide) (by rfl)

/-- C8: the merged boundary list is the per-section lists joined, and is
strictly sorted — hence free of duplicates — and contains exactly the
addresses of the joined per-section lists. -/
theorem claim_C8_merged_sorted_unique (p : Processor) (fuel : Nat)
    (l : List Nat) (h : p.compute_block_boundaries fuel = some l) :
    List.Sorted (· < ·) l ∧
    ∃ j, joinSectionBoundaries p fuel p.sections = some j ∧
      (∀ x, x ∈ l ↔ x ∈ j) := by
  unfold Processor.compute_block_boundaries at h
  rcases Option.map_eq_some'.mp h with ⟨j, hj, hl⟩
  subst hl
  refine ⟨dedupAdj_sorted _ (List.sorted_insertionSort _ j), j, hj, ?_⟩
  intro x
  rw [mem_dedupAdj]
  exact (List.perm_insertionSort _ j).mem_iff

/-- C8 witness: the two-adjacent-sections state merges `[0,0,4]` and
`[4,4,8]` into the strictly sorted `[0,4,8]`. -/
theorem claim_C8_witness :
    List.Sorted (· < ·) ([0, 4, 8] : List Nat) ∧
    ∃ j, joinSectionBoundaries pTwo 20 pTwo.sections = some j ∧
      (∀ x, x ∈ ([0, 4, 8] : List Nat) ↔ x ∈ j) :=
  claim_C8_merged_sorted_unique pTwo 20 [0, 4, 8] (by rfl)

/-- C9: the engine is deterministic — `parse_blocks` and
`compute_block_boundaries` are pure functions of the engine state, and
joining the per-section worker results in any completion order (any
permutation of the section list) produces the same merged boundary list,
so the parallel schedule cannot affect the output. -/
theorem claim_C9_deterministic (p : Processor) (a fuel : Nat)
    (secs' : List Section) (hperm : secs'.Perm p.sections) :
    p.parse_blocks a = p.parse_blocks a ∧
    p.compute_block_boundaries fuel = p.compute_block_boundaries fuel ∧
    (joinSectionBoundaries p fuel secs').map
      (fun l => dedupAdj (List.insertionSort (· ≤ ·) l)) =
      p.compute_block_boundaries fuel := by
  refine ⟨rfl, rfl, ?_⟩
  have hop := joinSectionBoundaries_perm p fuel hperm
  unfold Processor.compute_block_boundaries
  cases j1 : joinSectionBoundaries p fuel secs' <;>
    cases j2 : joinSectionBoundaries p fuel p.sections <;>
    rw [j1, j2] at hop <;>
    first
      | rfl
      | exact False.elim hop
      | (simp only [Option.map_some']
         rw [insertionSort_eq_of_perm hop])

/-- C9 witness: joining the two workers of the adjacent-sections state
in the reversed order yields the same merged list. -/
theorem claim_C9_witness :
    pTwo.parse_blocks 4 = pTwo.parse_blocks 4 ∧
    pTwo.compute_block_boundaries 20 = pTwo.compute_block_boundaries 20 ∧
    (joinSectionBoundaries pTwo 20 [secB, secA]).map
      (fun l => dedupAdj (List.insertionSort (· ≤ ·) l)) =
      pTwo.compute_block_boundaries 20 :=
  claim_C9_deterministic pTwo 4 20 [secB, secA] (List.Perm.swap secA secB [])

/-- C4 counterexample: the claim says the implementation treats a
zero-width decoder result as a fatal invariant violation rather than
looping.  The code has no such guard: over `pZero` (width-0 instruction
at address 0 of `[0,4)`) the loop re-queries address 0 forever and never
produces a result — here evaluated at fuel 100, and for every fuel by
the first conjunct of the amended theorem — instead of raising any
error. -/
theorem claim_C4_counterexample :
    pZero.compute_section_boundaries secZero 100 = none ∧
    pZero.instruction_by_addr 0 = some 0 ∧
    pZero.instruction_width 0 = 0 ∧
    secZero.addr = 0 ∧ secZero.addr < secZero.end_ := by
  refine ⟨?_, rfl, rfl, rfl, by decide⟩
  show (sectionBoundariesLoop pZero secZero 100 0 [0]).map
    (fun l => l ++ [secZero.end_]) = none
  rw [pZero_loop_none 100]
  rfl

/-- C4 amended: on a zero-width decoder item the loop fails to advance
and never terminates (no fuel bound suffices; there is no fatal-error
path).  Termination holds under the decoder discipline the spec intends:
when every decoded item at an in-section address has width at least 1
and ends within the section, the walk from `section.addr ≤ section.end`
finishes within `section.end - section.addr + 1` iterations, each one
strictly advancing the address until it reaches `section.end`. -/
theorem claim_C4_amended :
    (∀ fuel, pZero.compute_section_boundaries secZero fuel = none) ∧
    ∀ (p : Processor) (s : Section),
      (∀ a i, a < s.end_ → p.instruction_by_addr a = some i →
        1 ≤ p.instruction_width i ∧ a + p.instruction_width i ≤ s.end_) →
      (∀ a e, a < s.end_ → p.error_by_addr a = some e →
        1 ≤ e.size ∧ a + e.size ≤ s.end_) →
      s.addr ≤ s.end_ →
      ∃ l, p.compute_section_boundaries s (s.end_ - s.addr + 1) = some l := by
  constructor
  · intro fuel
    show (sectionBoundariesLoop pZero secZero fuel 0 [0]).map
      (fun l => l ++ [secZero.end_]) = none
    rw [pZero_loop_none fuel]
    rfl
  · intro p s hw he hsa
    rcases sectionBoundariesLoop_terminates p s hw he (s.end_ - s.addr)
      s.addr [s.start] hsa (by omega) with ⟨out, hout⟩
    refine ⟨out ++ [s.end_], ?_⟩
    unfold Processor.compute_section_boundaries
    rw [hout]
    rfl

/-- C4 witness: the zero-width state diverges at fuel 7, and scenario S1
(all widths 4, in bounds) terminates with the stated fuel. -/
theorem claim_C4_witness :
    pZero.compute_section_boundaries secZero 7 = none ∧
    ∃ l, pS1.compute_section_boundaries secS1 (secS1.end_ - secS1.addr + 1) = some l :=
  ⟨claim_C4_amended.1 7,
   claim_C4_amended.2 pS1 secS1
    (by
      intro a i ha hi
      show 1 ≤ 4 ∧ a + 4 ≤ 16
      rcases eq_or_ne a 0 with rfl | h0
      · omega
      · rw [show pS1.instruction_by_addr a = none from if_neg h0] at hi
        cases hi)
    (by
      intro a e ha he
      cases he)
    (by decide)⟩

/-- C7: at the exclusive end of a section that lies inside (or at the
start of) no other section — and with the decoder silent there, as it is
beyond every section's content — `parse_blocks` returns exactly one
`SectionEnd` block and no real block, and does not raise the
address-out-of-range fault (which is reserved for addresses with no
containing section). -/
theorem claim_C7_section_end (p : Processor) (addr : Nat) (s : Section)
    (hs : s ∈ p.sections) (hend : s.end_ = addr)
    (hnotin : ∀ t ∈ p.sections, ¬(t.start ≤ addr ∧ addr < t.end_))
    (hnostart : ∀ t ∈ p.sections, t.start ≠ addr)
    (hinst : p.instruction_by_addr addr = none)
    (herr : p.error_by_addr addr = none) :
    ∃ s', s' ∈ p.sections ∧ s'.end_ = addr ∧
      p.parse_blocks addr = Except.ok [⟨addr, .sectionEnd s'⟩] := by
  have hfs : p.sections.find? (fun sec => sec.start == addr) = none :=
    List.find?_eq_none.mpr (fun t ht => by simpa using hnostart t ht)
  have hfe : (p.sections.find? (fun sec => sec.end_ == addr)).isSome :=
    List.find?_isSome.mpr ⟨s, hs, by simpa using hend⟩
  rcases Option.isSome_iff_exists.mp hfe with ⟨s', hs'⟩
  have hs'mem := List.mem_of_find?_eq_some hs'
  have hs'end : s'.end_ = addr := by simpa using List.find?_some hs'
  have hsba : ∃ s2, p.section_by_addr addr = some s2 ∧ s2.end_ = addr := by
    unfold Processor.section_by_addr
    have h1 : p.sections.find? (fun t => decide (t.start ≤ addr ∧ addr < t.end_)) = none :=
      List.find?_eq_none.mpr (fun t ht => by simpa using hnotin t ht)
    rw [h1]
    have h2 : (p.sections.find? (fun t => decide (addr = t.end_))).isSome :=
      List.find?_isSome.mpr ⟨s, hs, by simp [hend]⟩
    rcases Option.isSome_iff_exists.mp h2 with ⟨s2, hs2⟩
    refine ⟨s2, by rw [hs2], ?_⟩
    have := List.find?_some hs2
    simp only [decide_eq_true_eq] at this
    exact this.symm
  rcases hsba with ⟨s2, hs2, hs2end⟩
  have hdc : p.parse_data_or_code addr = Except.ok none := by
    unfold Processor.parse_data_or_code
    rw [hs2, hinst, herr]
    have hsc : scanRunEnd p s2.end_ addr = addr := scanRunEnd_of_le p (by omega)
    simp only [hsc, Nat.sub_self, gt_iff_lt, Nat.lt_irrefl, if_false]
  refine ⟨s', hs'mem, hs'end, ?_⟩
  rw [parse_blocks_ok p addr hdc]
  unfold sectionMarkers
  rw [hfs, hs']
  simp [labelledReal]

/-- C7 witness: address 8 ends section `b` of the adjacent-sections
state, is inside no section, and yields exactly `[SectionEnd b]`. -/
theorem claim_C7_witness :
    ∃ s', s' ∈ pTwo.sections ∧ s'.end_ = 8 ∧
      pTwo.parse_blocks 8 = Except.ok [⟨8, .sectionEnd s'⟩] :=
  claim_C7_section_end pTwo 8 secB (by simp [pTwo]) (by rfl)
    (by
      intro t ht
      rcases List.mem_cons.mp ht with rfl | ht2
      · decide
      · rcases List.mem_singleton.mp ht2 with rfl
        decide)
    (by
      intro t ht
      rcases List.mem_cons.mp ht with rfl | ht2
      · decide
      · rcases List.mem_singleton.mp ht2 with rfl
        decide)
    (by rfl) (by rfl)

/-- `find?` over the section starts reflects existence of a section
starting at the address. -/
theorem find?_start_iff (p : Processor) (addr : Nat) :
    (p.sections.find? (fun sec => sec.start == addr)).isSome = true ↔
      ∃ sec ∈ p.sections, sec.start = addr := by
  rw [List.find?_isSome]
  simp

/-- `find?` over the section ends reflects existence of a section ending
at the address. -/
theorem find?_end_iff (p : Processor) (addr : Nat) :
    (p.sections.find? (fun sec => sec.end_ == addr)).isSome = true ↔
      ∃ sec ∈ p.sections, sec.end_ = addr := by
  rw [List.find?_isSome]
  simp

/-- The marker prefix splits into a SectionEnd part followed by a
SectionStart part, each present exactly when a section ends (resp.
starts) at the address. -/
theorem sectionMarkers_split (p : Processor) (addr : Nat) :
    ∃ ems sms : List Block, sectionMarkers p addr = ems ++ sms ∧
      ems.length ≤ 1 ∧ sms.length ≤ 1 ∧
      (∀ b ∈ ems, b.isSectionEnd = true) ∧
      (∀ b ∈ sms, b.isSectionStart = true) ∧
      (ems ≠ [] ↔ ∃ sec ∈ p.sections, sec.end_ = addr) ∧
      (sms ≠ [] ↔ ∃ sec ∈ p.sections, sec.start = addr) := by
  unfold sectionMarkers
  rcases hss : p.sections.find? (fun sec => sec.start == addr) with _ | st <;>
    rcases hse : p.sections.find? (fun sec => sec.end_ == addr) with _ | en <;>
    rw [hss, hse]
  · refine ⟨[], [], by simp, by simp, by simp, by simp, by simp, ?_, ?_⟩
    · rw [← find?_end_iff p addr, hse]
      simp
    · rw [← find?_start_iff p addr, hss]
      simp
  · refine ⟨[⟨addr, .sectionEnd en⟩], [], by simp, by simp, by simp, ?_, by simp, ?_, ?_⟩
    · intro b hb
      rcases List.mem_singleton.mp hb with rfl
      rfl
    · rw [← find?_end_iff p addr, hse]
      simp
    · rw [← find?_start_iff p addr, hss]
      simp
  · refine ⟨[], [⟨addr, .sectionStart st⟩], by simp, by simp, by simp, by simp, ?_, ?_, ?_⟩
    · intro b hb
      rcases List.mem_singleton.mp hb with rfl
      rfl
    · rw [← find?_end_iff p addr, hse]
      simp
    · rw [← find?_start_iff p addr, hss]
      simp
  · refine ⟨[⟨addr, .sectionEnd en⟩], [⟨addr, .sectionStart st⟩], by simp, by simp,
      by simp, ?_, ?_, ?_, ?_⟩
    · intro b hb
      rcases List.mem_singleton.mp hb with rfl
      rfl
    · intro b hb
      rcases List.mem_singleton.mp hb with rfl
      rfl
    · rw [← find?_end_iff p addr, hse]
      simp
    · rw [← find?_start_iff p addr, hss]
      simp

/-- The suffix after the markers splits into a label part and a real
part: at most one of each, the label present exactly when a real block
was produced and the symbol index has a function at the address. -/
theorem labelledReal_split (p : Processor) (addr : Nat) {ob : Option Block}
    (hdc : p.parse_data_or_code addr = Except.ok ob) :
    ∃ lbs rls : List Block, labelledReal p addr ob = lbs ++ rls ∧
      lbs.length ≤ 1 ∧ rls.length ≤ 1 ∧
      (∀ b ∈ lbs, b.isLabel = true) ∧
      (∀ b ∈ rls, b.isReal = true) ∧
      (lbs ≠ [] ↔ rls ≠ [] ∧ (p.get_func_by_addr addr).isSome = true) := by
  rcases ob with _ | real
  · exact ⟨[], [], by simp [labelledReal], by simp, by simp, by simp, by simp, by simp⟩
  · have hreal := (parse_data_or_code_real hdc real rfl).2
    unfold labelledReal
    rcases hf : p.get_func_by_addr addr with _ | sym
    · refine ⟨[], [real], by simp, by simp, by simp, by simp, ?_, by simp [hf]⟩
      intro b hb
      rcases List.mem_singleton.mp hb with rfl
      exact hreal
    · refine ⟨[⟨addr, .label sym⟩], [real], by simp, by simp, by simp, ?_, ?_, by simp⟩
      · intro b hb
        rcases List.mem_singleton.mp hb with rfl
        rfl
      · intro b hb
        rcases List.mem_singleton.mp hb with rfl
        exact hreal

/-- C5: `parse_blocks` emits, in order: a SectionEnd marker (iff a
section ends at `addr`), a SectionStart marker (iff one starts there) —
so "ended" is rendered before "started" — then a Label iff a real block
was produced and the symbol index has a function at `addr`, then the one
real block. -/
theorem claim_C5_emission_order (p : Processor) (addr : Nat) (bl : List Block)
    (h : p.parse_blocks addr = Except.ok bl) :
    ∃ ems sms lbs rls : List Block,
      bl = ems ++ sms ++ lbs ++ rls ∧
      ems.length ≤ 1 ∧ sms.length ≤ 1 ∧ lbs.length ≤ 1 ∧ rls.length ≤ 1 ∧
      (∀ b ∈ ems, b.isSectionEnd = true) ∧
      (∀ b ∈ sms, b.isSectionStart = true) ∧
      (∀ b ∈ lbs, b.isLabel = true) ∧
      (∀ b ∈ rls, b.isReal = true) ∧
      (ems ≠ [] ↔ ∃ sec ∈ p.sections, sec.end_ = addr) ∧
      (sms ≠ [] ↔ ∃ sec ∈ p.sections, sec.start = addr) ∧
      (lbs ≠ [] ↔ rls ≠ [] ∧ (p.get_func_by_addr addr).isSome = true) := by
  cases hdc : p.parse_data_or_code addr with
  | error e =>
    rw [parse_blocks_error hdc] at h
    cases h
  | ok ob =>
    rw [parse_blocks_ok p addr hdc] at h
    cases h
    rcases sectionMarkers_split p addr with
      ⟨ems, sms, hm, hl1, hl2, he1, he2, hi1, hi2⟩
    rcases labelledReal_split p addr hdc with
      ⟨lbs, rls, ht, hl3, hl4, he3, he4, hi3⟩
    exact ⟨ems, sms, lbs, rls, by rw [hm, ht]; simp [List.append_assoc],
      hl1, hl2, hl3, hl4, he1, he2, he3, he4, hi1, hi2, hi3⟩

/-- C5 witness: the shared edge at address 4 of the adjacent-sections
state, where section `a` ends, section `b` starts, and a byte run
follows with no label. -/
theorem claim_C5_witness :
    ∃ ems sms lbs rls : List Block,
      (pTwo.parse_blocks 4).toOption.getD [] = ems ++ sms ++ lbs ++ rls ∧
      ems.length ≤ 1 ∧ sms.length ≤ 1 ∧ lbs.length ≤ 1 ∧ rls.length ≤ 1 ∧
      (∀ b ∈ ems, b.isSectionEnd = true) ∧
      (∀ b ∈ sms, b.isSectionStart = true) ∧
      (∀ b ∈ lbs, b.isLabel = true) ∧
      (∀ b ∈ rls, b.isReal = true) ∧
      (ems ≠ [] ↔ ∃ sec ∈ pTwo.sections, sec.end_ = 4) ∧
      (sms ≠ [] ↔ ∃ sec ∈ pTwo.sections, sec.start = 4) ∧
      (lbs ≠ [] ↔ rls ≠ [] ∧ (pTwo.get_func_by_addr 4).isSome = true) :=
  claim_C5_emission_order pTwo 4 ((pTwo.parse_blocks 4).toOption.getD []) (by rfl)

/-- The conclusion of C6, as a consequence of the scan facts. -/
theorem bytes_clear_core {p : Processor} {addr : Nat} {s : Section} {bs : List Nat}
    (hle : addr ≤ s.end_)
    (hbs : bs = s.bytes_by_addr addr (scanRunEnd p s.end_ addr - addr))
    (hlt : addr < scanRunEnd p s.end_ addr) :
    0 < bs.length ∧ addr + bs.length ≤ s.end_ ∧
    (∀ x, addr ≤ x → x < addr + bs.length →
      p.instruction_by_addr x = none ∧ p.error_by_addr x = none ∧
      (x ≠ addr → p.get_func_by_addr x = none)) ∧
    (addr + bs.length = s.end_ ∨
      (p.instruction_by_addr (addr + bs.length)).isSome = true ∨
      (p.error_by_addr (addr + bs.length)).isSome = true ∨
      ((p.get_func_by_addr (addr + bs.length)).isSome = true ∧
        addr + bs.length ≠ addr)) := by
  have hlen : bs.length = scanRunEnd p s.end_ addr - addr := by
    rw [hbs]
    simp [Section.bytes_by_addr]
  have hsum : addr + bs.length = scanRunEnd p s.end_ addr := by omega
  have hscle := scanRunEnd_le p hle
  refine ⟨by omega, by omega, ?_, ?_⟩
  · intro x hx1 hx2
    exact scanRunEnd_scanned p s.end_ addr x hx1 (by omega)
  · rw [hsum]
    rcases scanRunEnd_stop p hle with h | h | h | ⟨h1, h2⟩
    · exact Or.inl h
    · exact Or.inr (Or.inl h)
    · exact Or.inr (Or.inr (Or.inl h))
    · exact Or.inr (Or.inr (Or.inr ⟨h2, fun he => h1 he.symm⟩))

/-- C6: a Bytes block in the output of `parse_blocks` spans a range
containing no instruction start, no error start, and no labelled address
other than possibly its own start, and the range stops at the first of
section end, instruction start, error start, or label-not-at-start. -/
theorem claim_C6_bytes_clear (p : Processor) (addr : Nat) (s : Section)
    (bl : List Block) (bs : List Nat)
    (hsec : p.section_by_addr addr = some s)
    (h : p.parse_blocks addr = Except.ok bl)
    (hmem : Block.mk addr (.bytes bs) ∈ bl) :
    0 < bs.length ∧ addr + bs.length ≤ s.end_ ∧
    (∀ x, addr ≤ x → x < addr + bs.length →
      p.instruction_by_addr x = none ∧ p.error_by_addr x = none ∧
      (x ≠ addr → p.get_func_by_addr x = none)) ∧
    (addr + bs.length = s.end_ ∨
      (p.instruction_by_addr (addr + bs.length)).isSome = true ∨
      (p.error_by_addr (addr + bs.length)).isSome = true ∨
      ((p.get_func_by_addr (addr + bs.length)).isSome = true ∧
        addr + bs.length ≠ addr)) := by
  have hle : addr ≤ s.end_ := (section_by_addr_mem_le hsec).2
  cases hdc : p.parse_data_or_code addr with
  | error e =>
    rw [parse_blocks_error hdc] at h
    cases h
  | ok ob =>
    rw [parse_blocks_ok p addr hdc] at h
    cases h
    rcases List.mem_append.mp hmem with hm | hm
    · rcases (sectionMarkers_shape p addr _ hm).2.2.2 with h1 | h1 <;> cases h1
    · rcases ob with _ | real
      · cases hm
      · unfold labelledReal at hm
        have hreal : Block.mk addr (.bytes bs) = real := by
          rcases hf : p.get_func_by_addr addr with _ | sym <;> rw [hf] at hm
          · exact List.mem_singleton.mp hm
          · rcases List.mem_cons.mp hm with hlab | hm2
            · exact absurd (congrArg Block.content hlab) (by simp)
            · exact List.mem_singleton.mp hm2
        rcases parse_data_or_code_bytes_inv hsec hdc (by rw [← hreal]) with
          ⟨hbs, hlt, hin, hen⟩
        exact bytes_clear_core hle hbs hlt

/-- C6 witness: the Bytes block at address 4 of scenario S1 spans
`[4, 16)` with a clear interior stopping at the section end. -/
theorem claim_C6_witness :
    0 < (secS1.bytes_by_addr 4 12).length ∧
    4 + (secS1.bytes_by_addr 4 12).length ≤ secS1.end_ ∧
    (∀ x, 4 ≤ x → x < 4 + (secS1.bytes_by_addr 4 12).length →
      pS1.instruction_by_addr x = none ∧ pS1.error_by_addr x = none ∧
      (x ≠ 4 → pS1.get_func_by_addr x = none)) ∧
    (4 + (secS1.bytes_by_addr 4 12).length = secS1.end_ ∨
      (pS1.instruction_by_addr (4 + (secS1.bytes_by_addr 4 12).length)).isSome = true ∨
      (pS1.error_by_addr (4 + (secS1.bytes_by_addr 4 12).length)).isSome = true ∨
      ((pS1.get_func_by_addr (4 + (secS1.bytes_by_addr 4 12).length)).isSome = true ∧
        4 + (secS1.bytes_by_addr 4 12).length ≠ 4)) :=
  claim_C6_bytes_clear pS1 4 secS1 [⟨4, .bytes (secS1.bytes_by_addr 4 12)⟩]
    (secS1.bytes_by_addr 4 12) (by rfl) (by rfl) (List.mem_singleton.mpr rfl)

/-- C3 counterexample: over `secSkip` (`start = 0`, walk start
`addr = 2`, `end = 4`, nothing decoded) the boundary list is `[0, 2, 4]`,
yet `parse_blocks 0` produces one real Bytes block of implied width 4 —
it spans `[0, 4)`, not the claimed `2 - 0 = 2` — because the walk never
stood on the skipped leading region `[0, 2)` while `parse_blocks` scans
right across it. -/
theorem claim_C3_counterexample :
    pSkip.compute_section_boundaries secSkip 10 = some [0, 2, 4] ∧
    ((pSkip.parse_blocks 0).toOption.getD []).filter Block.isReal =
      [⟨0, .bytes [0, 0, 0, 0]⟩] ∧
    pSkip.impliedWidth 0 ⟨0, .bytes [0, 0, 0, 0]⟩ = some 4 ∧
    ¬(4 = 2 - 0) := by
  exact ⟨rfl, rfl, rfl, by decide⟩

/-- C3 amended: the claim holds for a section whose walk starts at the
section start (`s.addr = s.start`, no skipped leading region), granted
that `section_by_addr` resolves in-section addresses to that section:
for consecutive boundaries `a < b`, `parse_blocks a` yields exactly one
real block, at `a`, of implied width `b - a`.  When `s.addr > s.start`
the pair `(s.start, first walked boundary)` can violate the width
equation, as the counterexample shows. -/
theorem claim_C3_amended (p : Processor) (s : Section) (fuel i a b : Nat)
    (l : List Nat) (bl : List Block)
    (hstart : s.addr = s.start)
    (hsec : ∀ x, s.start ≤ x → x < s.end_ → p.section_by_addr x = some s)
    (hres : p.compute_section_boundaries s fuel = some l)
    (ha : l[i]? = some a) (hb : l[i + 1]? = some b) (hab : a < b)
    (hbl : p.parse_blocks a = Except.ok bl) :
    ∃ r, bl.filter Block.isReal = [r] ∧ r.addr = a ∧
      p.impliedWidth a r = some (b - a) := by
  have hch := compute_section_boundaries_chain_step hres hstart
  rcases chain'_pair hch ha hb with ⟨hle, hcond⟩
  rcases hcond hab with ⟨haend, hstep⟩
  have hamem : a ∈ l := by
    rcases List.getElem?_eq_some.mp ha with ⟨hia, rfl⟩
    exact List.getElem_mem _
  have hage : s.start ≤ a :=
    (compute_section_boundaries_mem hres (by omega) a hamem).1
  rcases parse_data_or_code_width (hsec a hage haend) haend with
    ⟨r, hdc, hra, hrr, hwidth⟩
  rw [parse_blocks_ok p a hdc] at hbl
  cases hbl
  refine ⟨r, ?_, hra, by rw [hwidth, hstep]⟩
  rw [List.filter_append, sectionMarkers_filter_real, List.nil_append]
  unfold labelledReal
  rcases hf : p.get_func_by_addr a with _ | sym
  · rw [List.filter_cons_of_pos hrr, List.filter_nil]
  · rw [List.filter_cons_of_neg (by intro hcon; cases hcon),
      List.filter_cons_of_pos hrr, List.filter_nil]

/-- C3 witness: the amended statement over scenario S1 at the
consecutive pair `(0, 4)` (indices 1 and 2 of `[0, 0, 4, 16]`). -/
theorem claim_C3_witness :
    ∃ r, ((pS1.parse_blocks 0).toOption.getD []).filter Block.isReal = [r] ∧
      r.addr = 0 ∧ pS1.impliedWidth 0 r = some (4 - 0) :=
  claim_C3_amended pS1 secS1 20 1 0 4 [0, 0, 4, 16]
    ((pS1.parse_blocks 0).toOption.getD []) (by rfl)
    (by
      intro x hx0 hx16
      unfold Processor.section_by_addr
      have : (pS1.sections.find?
          (fun t => decide (t.start ≤ x ∧ x < t.end_))) = some secS1 := by
        have hpred : (fun (t : Section) => decide (t.start ≤ x ∧ x < t.end_)) secS1 = true := by
          simp only [decide_eq_true_eq]
          exact ⟨hx0, hx16⟩
        simp [pS1, List.find?, hpred]
      rw [this])
    (by rfl) (by rfl) (by rfl) (by decide) (by rfl)

/-- A real block is not a label. -/
theorem Block.isLabel_eq_false_of_isReal {b : Block} (h : b.isReal = true) :
    b.isLabel = false := by
  rcases b with ⟨a, c⟩
  cases c <;> first | rfl | cases h

/-- C10: a function symbol at an address `x` strictly between
consecutive boundaries `a < b` — in particular strictly inside the
decoded item spanning `[a, b)` — contributes no boundary (`x ∉ l`) and
no Label block: every block `parse_blocks a` emits carries address `a`,
and a Label appears only when the symbol index reports a function at `a`
itself. -/
theorem claim_C10_internal_label (p : Processor) (s : Section)
    (fuel i a b x : Nat) (sym : Symbol) (l : List Nat) (bl : List Block)
    (hsa : s.start ≤ s.addr)
    (hres : p.compute_section_boundaries s fuel = some l)
    (ha : l[i]? = some a) (hb : l[i + 1]? = some b)
    (hx1 : a < x) (hx2 : x < b)
    (_hitem : (p.instruction_by_addr a).isSome = true ∨
      (p.error_by_addr a).isSome = true)
    (_hfunc : p.get_func_by_addr x = some sym)
    (hbl : p.parse_blocks a = Except.ok bl) :
    x ∉ l ∧ ∀ blk ∈ bl, blk.addr = a ∧
      (blk.isLabel = true → (p.get_func_by_addr a).isSome = true) := by
  constructor
  · have hs := compute_section_boundaries_sorted hres hsa
    intro hxl
    rcases List.mem_iff_getElem.mp hxl with ⟨j, hj, hgx⟩
    rcases List.getElem?_eq_some.mp ha with ⟨hia, ha'⟩
    rcases List.getElem?_eq_some.mp hb with ⟨hib, hb'⟩
    rcases Nat.lt_or_ge j (i + 1) with hji | hji
    · rcases Nat.lt_or_ge j i with hji2 | hji2
      · have := sorted_le_getElem hs hj hia hji2
        omega
      · have hji3 : j = i := by omega
        subst hji3
        omega
    · rcases Nat.lt_or_ge (i + 1) j with hj2 | hj2
      · have := sorted_le_getElem hs hib hj hj2
        omega
      · have hji3 : j = i + 1 := by omega
        subst hji3
        omega
  · cases hdc : p.parse_data_or_code a with
    | error e =>
      rw [parse_blocks_error hdc] at hbl
      cases hbl
    | ok ob =>
      rw [parse_blocks_ok p a hdc] at hbl
      cases hbl
      intro blk hblk
      rcases List.mem_append.mp hblk with hm | hm
      · rcases sectionMarkers_shape p a blk hm with ⟨haddr, _, hlab, _⟩
        exact ⟨haddr, fun hl => by rw [hlab] at hl; cases hl⟩
      · rcases ob with _ | real
        · cases hm
        · have hrt := parse_data_or_code_real hdc real rfl
          unfold labelledReal at hm
          rcases hf : p.get_func_by_addr a with _ | sym' <;> rw [hf] at hm
          · rcases List.mem_singleton.mp hm with rfl
            exact ⟨hrt.1, fun hl => by
              rw [Block.isLabel_eq_false_of_isReal hrt.2] at hl; cases hl⟩
          · rcases List.mem_cons.mp hm with rfl | hm2
            · exact ⟨rfl, fun _ => rfl⟩
            · rcases List.mem_singleton.mp hm2 with rfl
              exact ⟨hrt.1, fun _ => rfl⟩

/-- C10 witness: `pLab` has a function symbol at address 2, strictly
inside the width-4 instruction at 0; the boundary list is `[0, 0, 4, 8]`
(no boundary at 2) and `parse_blocks 0` emits only blocks at 0 with no
label. -/
theorem claim_C10_witness :
    2 ∉ ([0, 0, 4, 8] : List Nat) ∧
    ∀ blk ∈ (pLab.parse_blocks 0).toOption.getD [], blk.addr = 0 ∧
      (blk.isLabel = true → (pLab.get_func_by_addr 0).isSome = true) :=
  claim_C10_internal_label pLab secLab 20 1 0 4 2 ⟨[]⟩ [0, 0, 4, 8]
    ((pLab.parse_blocks 0).toOption.getD []) (by decide) (by rfl)
    (by rfl) (by rfl) (by decide) (by decide) (Or.inl (by rfl)) (by rfl) (by rfl)

end Bite
